import Mathlib

/- Verification development for the deep-research repository.

   Shallow embedding of the two core source files:
   - src/py_src/text_splitter.py : TextSplitter / RecursiveCharacterTextSplitter,
     modelled over List Char (a Python str is a sequence of characters);
   - src/py_src/deep_research.py : the recursive research orchestrator,
     modelled over Lean String with the external collaborators (completion
     service, search service) supplied as an explicit environment.

   Python exceptions of the search collaborator are modelled with Except;
   the unbounded recursion of split_text is modelled with explicit fuel
   (Option-valued), so that nontermination is observable as "none for
   every fuel".  All definitions are executable.  -/

/-! ## Chunker: text_splitter.py -/

/-- The separator cascade of RecursiveCharacterTextSplitter
    (text_splitter.py line 56). -/
def defaultSeparators : List (List Char) :=
  [['\n', '\n'], ['\n'], ['.'], [','], ['>'], ['<'], [' '], []]

/-- Boolean "l1 is a prefix of l2" on character lists. -/
def isPrefixList : List Char → List Char → Bool
  | [], _ => true
  | _ :: _, [] => false
  | a :: as, b :: bs => a == b && isPrefixList as bs

/-- Python substring containment `sep in text` on character lists. -/
def containsSub (sep : List Char) : List Char → Bool
  | [] => sep.isEmpty
  | c :: rest => isPrefixList sep (c :: rest) || containsSub sep rest

/-- Separator selection (text_splitter.py lines 62-66): the first separator of
    the cascade that is empty or occurs in the text; initialised to the last
    separator when none matches. -/
def pickSeparator (seps : List (List Char)) (text : List Char) : List Char :=
  match seps.find? (fun s => s.isEmpty || containsSub s text) with
  | some s => s
  | none => (seps.getLast?).getD []

/-- Python str.split(sep) for a nonempty separator, on character lists.
    The fuel argument (initially the text length) only serves to make the
    recursion structural; each step consumes at least one character, so the
    fuel never actually runs out when sep is nonempty. -/
def splitOnAux (sep : List Char) : Nat → List Char → List Char → List (List Char)
  | _, [], acc => [acc]
  | 0, text, acc => [acc ++ text]
  | fuel + 1, c :: rest, acc =>
    if isPrefixList sep (c :: rest) then
      acc :: splitOnAux sep fuel ((c :: rest).drop sep.length) []
    else
      splitOnAux sep fuel rest (acc ++ [c])

/-- Python str.split(sep), left-to-right non-overlapping, on character lists. -/
def splitOnSep (sep : List Char) (text : List Char) : List (List Char) :=
  splitOnAux sep text.length text []

/-- Python str.strip(): remove leading and trailing whitespace. -/
def strip (l : List Char) : List Char :=
  ((l.dropWhile Char.isWhitespace).reverse.dropWhile Char.isWhitespace).reverse

/-- TextSplitter._join_docs (lines 22-24): join with the separator, strip,
    and drop the chunk when the result is empty. -/
def joinDocs (docs : List (List Char)) (sep : List Char) : Option (List Char) :=
  let text := strip (List.intercalate sep docs)
  if text.isEmpty then none else some text

/-- The overlap-eviction while-loop inside merge_splits (lines 41-45):
    pop pieces from the front while total > overlap or
    (total + dLen > chunk_size and total > 0). -/
def evictPieces (ov cs dLen : Nat) : List (List Char) → Nat → List (List Char) × Nat
  | [], total => ([], total)
  | c0 :: rest, total =>
    if ov < total ∨ (cs < total + dLen ∧ 0 < total) then
      evictPieces ov cs dLen rest (total - c0.length)
    else (c0 :: rest, total)

/-- One iteration of the merge_splits for-loop (lines 30-47).  The state is
    (emitted docs, current buffer, running total of buffered piece lengths).
    The oversized-chunk print on lines 33-36 is a diagnostic with no effect
    on the result and is not modelled. -/
def mergeStep (cs ov : Nat) (sep : List Char)
    (st : List (List Char) × List (List Char) × Nat) (d : List Char) :
    List (List Char) × List (List Char) × Nat :=
  let docs := st.1
  let current := st.2.1
  let total := st.2.2
  let dLen := d.length
  if cs ≤ total + dLen then
    match current with
    | [] => (docs, [d], total + dLen)
    | c0 :: cur =>
      let docs2 :=
        match joinDocs (c0 :: cur) sep with
        | some doc => docs ++ [doc]
        | none => docs
      let ev := evictPieces ov cs dLen (c0 :: cur) total
      (docs2, ev.1 ++ [d], ev.2 + dLen)
  else (docs, current ++ [d], total + dLen)

/-- merge_splits (text_splitter.py lines 26-51): greedy bin-packing of pieces
    with overlap retention, finalising the remaining buffer at the end. -/
def mergeSplits (cs ov : Nat) (splits : List (List Char)) (sep : List Char) :
    List (List Char) :=
  let st := splits.foldl (mergeStep cs ov sep) ([], [], 0)
  match joinDocs st.2.1 sep with
  | some doc => st.1 ++ [doc]
  | none => st.1

/-- The classification loop of split_text (lines 70-81): buffer pieces shorter
    than chunk_size; on an oversized piece, flush the buffer through merge and
    recurse on the piece; flush the remaining buffer at the end.
    `recurse` is the recursive split_text call (fuel-limited, hence Option). -/
def processSplits (cs : Nat) (mergeFn : List (List Char) → List (List Char))
    (recurse : List Char → Option (List (List Char))) :
    List (List Char) → List (List Char) → Option (List (List Char))
  | [], good => some (if good.isEmpty then [] else mergeFn good)
  | s :: rest, good =>
    if s.length < cs then
      processSplits cs mergeFn recurse rest (good ++ [s])
    else
      (recurse s).bind fun sub =>
        (processSplits cs mergeFn recurse rest []).map fun tail =>
          (if good.isEmpty then [] else mergeFn good) ++ sub ++ tail

/-- RecursiveCharacterTextSplitter.split_text (lines 58-82), with fuel bounding
    the recursion depth; `none` means the fuel ran out (the Python function
    would still be recursing). -/
def splitTextFuel (cs ov : Nat) : Nat → List Char → Option (List (List Char))
  | 0, _ => none
  | fuel + 1, text =>
    if text.isEmpty then some []
    else
      let sep := pickSeparator defaultSeparators text
      let splits := if sep.isEmpty then text.map (fun c => [c]) else splitOnSep sep text
      processSplits cs (fun good => mergeSplits cs ov good sep)
        (splitTextFuel cs ov fuel) splits []

/-- split_text as a total function: run with fuel text.length + 1, which is
    proved sufficient whenever chunk_size is at least 2. -/
def splitText (cs ov : Nat) (text : List Char) : List (List Char) :=
  (splitTextFuel cs ov (text.length + 1) text).getD []

/-- split terminates on this input for this configuration: some fuel suffices. -/
def splitTextTerminates (cs ov : Nat) (text : List Char) : Prop :=
  ∃ fuel, (splitTextFuel cs ov fuel text).isSome

/-- The configuration record built by TextSplitter.__init__. -/
structure TextSplitter where
  chunk_size : Nat
  chunk_overlap : Nat
deriving DecidableEq

/-- TextSplitter.__init__ (text_splitter.py lines 4-8): raise ValueError when
    chunk_overlap >= chunk_size, otherwise store the configuration.  The check
    is performed here only; no split/merge operation re-checks it. -/
def TextSplitter.init (chunk_size chunk_overlap : Nat) : Except String TextSplitter :=
  if chunk_size ≤ chunk_overlap then
    Except.error ("chunk_overlap must be smaller than chunk_size")
  else Except.ok ⟨chunk_size, chunk_overlap⟩

/-- Sum of the lengths of a list of pieces (the quantity merge_splits tracks
    in its `total` variable, which excludes separator lengths). -/
def sumLen (group : List (List Char)) : Nat := (group.map List.length).sum

/-- What split actually guarantees about an emitted chunk: it is the trimmed
    separator-join of a nonempty group of pieces, each shorter than chunk_size,
    whose summed length (separators excluded) is at most chunk_size. -/
def goodChunk (cs : Nat) (chunk : List Char) : Prop :=
  ∃ sep group, sep ∈ defaultSeparators ∧ group ≠ [] ∧
    chunk = strip (List.intercalate sep group) ∧
    sumLen group ≤ cs ∧ ∀ p ∈ group, p.length < cs

/-! ## Orchestrator: deep_research.py -/

/-- A search document (deep_research.py lines 13-16). -/
structure SearchResult where
  url : String
  markdown : String
deriving DecidableEq

/-- A planned sub-query (lines 18-21). -/
structure SerpQuery where
  query : String
  research_goal : String
deriving DecidableEq

/-- The mutable progress record (lines 23-31). -/
structure ResearchProgress where
  current_depth : Nat
  total_depth : Nat
  current_breadth : Nat
  total_breadth : Nat
  current_query : Option String
  total_queries : Nat
  completed_queries : Nat
deriving DecidableEq

/-- The research result (lines 33-36). -/
structure ResearchResult where
  learnings : List String
  visited_urls : List String
deriving DecidableEq

/-- The external collaborators: the completion service (openai.ChatCompletion,
    assumed total: its failures are fatal and out of scope here) and the search
    service (FirecrawlClient.search with its limit argument; any Python
    exception is modelled as Except.error). -/
structure Env where
  complete : String → String
  search : String → Nat → Except String (List SearchResult)

/-- Python "sep".join(parts). -/
def joinStrings (sep : String) : List String → String
  | [] => ""
  | [x] => x
  | x :: y :: rest => x ++ sep ++ joinStrings sep (y :: rest)

/-- Splitting completion output into lines.  Python uses str.splitlines();
    we split on the newline character.  The two differ only in extra blank
    lines (trailing newline, exotic line breaks), and both parsers below
    discard blank lines, so the difference is not observable there. -/
def splitLinesAux (acc : List Char) : List Char → List String
  | [] => [String.mk acc]
  | c :: rest =>
    if c = '\n' then String.mk acc :: splitLinesAux [] rest
    else splitLinesAux (acc ++ [c]) rest

/-- All lines of a string. -/
def splitLines (s : String) : List String :=
  splitLinesAux [] s.toList

/-- Python str.strip() on String (whitespace as Char.isWhitespace). -/
def stripStr (s : String) : String :=
  String.mk (strip s.toList)

/-- Python line.startswith("-"). -/
def startsWithDash (line : String) : Bool :=
  match line.toList with
  | [] => false
  | c :: _ => c = '-'

/-- Python line.lstrip("- "): drop leading dashes and spaces. -/
def lstripDashSpace (line : String) : String :=
  String.mk (line.toList.dropWhile (fun c => c = '-' || c = ' '))

/-- The prompt built by generate_serp_queries (lines 72-75). -/
def serpPrompt (query : String) (num_queries : Nat) (learnings : List String) : String :=
  ("Generate up to ") ++ toString num_queries ++
    (" SERP queries to research the topic.") ++
    (if learnings.isEmpty then "" else (" Use previous learnings: ") ++ joinStrings ("\n") learnings) ++
    ("\nTopic: ") ++ query

/-- generate_serp_queries (deep_research.py lines 71-86): ask the completion
    service, keep one SerpQuery per non-blank line (the stripped line is both
    the query and the research goal), truncate to num_queries. -/
def generate_serp_queries (env : Env) (query : String) (num_queries : Nat)
    (learnings : List String) : List SerpQuery :=
  let text := env.complete (serpPrompt query num_queries learnings)
  let queries := (splitLines text).filterMap fun line =>
    if stripStr line ≠ "" then some ⟨stripStr line, stripStr line⟩ else none
  queries.take num_queries

/-- The prompt built by process_serp_result (lines 90-94). -/
def processPrompt (query : String) (result : List SearchResult)
    (num_learnings num_follow_up_questions : Nat) : String :=
  let contents := (result.filter (fun r => r.markdown ≠ "")).map (fun r => r.markdown)
  let text := joinStrings ("\n") contents
  ("Using the following SERP results for \x27") ++ query ++
    ("\x27, generate up to ") ++ toString num_learnings ++
    (" learnings and ") ++ toString num_follow_up_questions ++
    (" follow-up questions.\n") ++ text

/-- process_serp_result (lines 89-108): one completion call; lines starting
    with "-" become learnings (bullet stripped), other non-blank lines become
    follow-up questions; each list truncated to its maximum. -/
def process_serp_result (env : Env) (query : String) (result : List SearchResult)
    (num_learnings num_follow_up_questions : Nat) : List String × List String :=
  let output := env.complete (processPrompt query result num_learnings num_follow_up_questions)
  let parsed := (splitLines output).foldl
    (fun (acc : List String × List String) line =>
      if startsWithDash line then (acc.1 ++ [lstripDashSpace line], acc.2)
      else if stripStr line ≠ "" then (acc.1, acc.2 ++ [stripStr line])
      else acc)
    ([], [])
  (parsed.1.take num_learnings, parsed.2.take num_follow_up_questions)

/-- list(dict.fromkeys(l)) (lines 194-195): keep the first occurrence of each
    value, preserving insertion order.  `seen` is the key set built so far. -/
def dedupFirstAux {α : Type} [DecidableEq α] (seen : List α) : List α → List α
  | [] => []
  | x :: xs =>
    if x ∈ seen then dedupFirstAux seen xs
    else x :: dedupFirstAux (seen ++ [x]) xs

/-- Ordered-set deduplication, first occurrence wins. -/
def dedupFirst {α : Type} [DecidableEq α] (l : List α) : List α :=
  dedupFirstAux [] l

/-- A fresh zeroed progress record (only used as the value of an unreachable
    branch below). -/
def emptyProgress : ResearchProgress :=
  ⟨0, 0, 0, 0, none, 0, 0⟩

/-- The type of the recursive call available to the per-query loop:
    query, breadth, learnings, visited_urls to
    (result, delivered progress snapshots, final progress of that level). -/
abbrev ChildFn :=
  String → Nat → List String → List String →
    ResearchResult × List ResearchProgress × ResearchProgress

/-- The per-query loop of deep_research (lines 164-189).  State: the remaining
    queries, this level's progress record, and the accumulated child results.
    Returns the results, the progress snapshots delivered to on_progress in
    order (child snapshots included), and the final progress record.
    A failed search skips the whole loop body, including the
    completed_queries report (the `continue` on line 169 jumps past line 189). -/
def drLoop (env : Env) (child : ChildFn) (breadth depth : Nat)
    (learnings visited_urls : List String) :
    List SerpQuery → ResearchProgress → List ResearchResult →
    List ResearchResult × List ResearchProgress × ResearchProgress
  | [], progress, results => (results, [], progress)
  | q :: rest, progress, results =>
    match env.search q.query 5 with
    | Except.error _ => drLoop env child breadth depth learnings visited_urls rest progress results
    | Except.ok res =>
      let urls := (res.filter (fun r => r.url ≠ "")).map (fun r => r.url)
      let pr := process_serp_result env q.query res 3 (max 1 (breadth / 2))
      let all_learnings := learnings ++ pr.1
      let all_urls := visited_urls ++ urls
      let new_depth := depth - 1
      let new_breadth := max 1 (breadth / 2)
      if 0 < new_depth then
        let next_query := q.research_goal ++ ("\nFollow ups: ") ++ joinStrings (" ") pr.2
        let sub := child next_query new_breadth all_learnings all_urls
        let progress2 := { progress with completed_queries := progress.completed_queries + 1 }
        let tail := drLoop env child breadth depth learnings visited_urls rest progress2
          (results ++ [sub.1])
        (tail.1, sub.2.1 ++ progress2 :: tail.2.1, tail.2.2)
      else
        let progress2 := { progress with completed_queries := progress.completed_queries + 1 }
        let tail := drLoop env child breadth depth learnings visited_urls rest progress2
          (results ++ [ResearchResult.mk all_learnings all_urls])
        (tail.1, progress2 :: tail.2.1, tail.2.2)

/-- The body of deep_research (lines 133-196) minus the recursive call, which
    is supplied as `child`: build this level's fresh progress record, plan the
    queries, report totals, run the per-query loop, merge and deduplicate. -/
def drBody (env : Env) (child : ChildFn) (depth : Nat) (query : String)
    (breadth : Nat) (learnings visited_urls : List String) :
    ResearchResult × List ResearchProgress × ResearchProgress :=
  let progress0 : ResearchProgress :=
    { current_depth := depth, total_depth := depth, current_breadth := breadth,
      total_breadth := breadth, current_query := none, total_queries := 0,
      completed_queries := 0 }
  let serp_queries := generate_serp_queries env query breadth learnings
  let progress1 := { progress0 with
    total_queries := serp_queries.length,
    current_query := serp_queries.head?.map (fun q => q.query) }
  let lp := drLoop env child breadth depth learnings visited_urls serp_queries progress1 []
  (⟨dedupFirst ((lp.1.map (fun r => r.learnings)).flatten),
    dedupFirst ((lp.1.map (fun r => r.visited_urls)).flatten)⟩,
   progress1 :: lp.2.1, lp.2.2)

/-- deep_research (deep_research.py lines 133-196).  Returns the merged
    result, the progress snapshots delivered to on_progress across the whole
    traversal in delivery order, and this level's final progress record.
    Recursion is on depth: the loop recurses only when depth - 1 > 0, so the
    child supplied at depth 0 is never invoked. -/
def deep_research (env : Env) :
    Nat → String → Nat → List String → List String →
      ResearchResult × List ResearchProgress × ResearchProgress
  | 0, query, breadth, ls, vs =>
    drBody env (fun _ _ _ _ => (⟨[], []⟩, [], emptyProgress)) 0 query breadth ls vs
  | d + 1, query, breadth, ls, vs =>
    drBody env (fun q2 b2 ls2 vs2 => deep_research env d q2 b2 ls2 vs2) (d + 1)
      query breadth ls vs

/-- The recursive call deep_research makes at a level invoked with the given
    depth (a child level runs at depth - 1). -/
def drChild (env : Env) : Nat → ChildFn
  | 0 => fun _ _ _ _ => (⟨[], []⟩, [], emptyProgress)
  | d + 1 => fun q2 b2 ls2 vs2 => deep_research env d q2 b2 ls2 vs2

/-- Does the search collaborator succeed on this query? -/
def searchOk (env : Env) (q : SerpQuery) : Bool :=
  match env.search q.query 5 with
  | Except.ok _ => true
  | Except.error _ => false

/-- One iteration of the per-query loop, seen as a function from the query to
    its branch result: none when the search collaborator fails (the branch is
    skipped), some r when the branch contributes r (a recursive result when
    depth - 1 > 0, a terminal result otherwise). -/
def processQuery (env : Env) (child : ChildFn) (breadth depth : Nat)
    (learnings visited_urls : List String) (q : SerpQuery) : Option ResearchResult :=
  match env.search q.query 5 with
  | Except.error _ => none
  | Except.ok res =>
    let urls := (res.filter (fun r => r.url ≠ "")).map (fun r => r.url)
    let pr := process_serp_result env q.query res 3 (max 1 (breadth / 2))
    let all_learnings := learnings ++ pr.1
    let all_urls := visited_urls ++ urls
    if 0 < depth - 1 then
      let next_query := q.research_goal ++ ("\nFollow ups: ") ++ joinStrings (" ") pr.2
      some (child next_query (max 1 (breadth / 2)) all_learnings all_urls).1
    else
      some (ResearchResult.mk all_learnings all_urls)

/-- The concatenation, in traversal order and before deduplication, of the
    learnings contributed by the branches of one deep_research call. -/
def rawLearnings (env : Env) (q : String) (b d : Nat) (ls vs : List String) : List String :=
  (((generate_serp_queries env q b ls).filterMap
      (processQuery env (drChild env d) b d ls vs)).map (fun r => r.learnings)).flatten

/-- The concatenation, in traversal order and before deduplication, of the
    visited urls contributed by the branches of one deep_research call. -/
def rawVisited (env : Env) (q : String) (b d : Nat) (ls vs : List String) : List String :=
  (((generate_serp_queries env q b ls).filterMap
      (processQuery env (drChild env d) b d ls vs)).map (fun r => r.visited_urls)).flatten

/-- The per-level shape of a delivered progress snapshot: current depth and
    breadth are never updated after the record is created, and the record
    created at nesting level i carries that level's parameters
    (depth0 - i, and max 1 (breadth0 >>> i) for i > 0). -/
def levelShape (b d : Nat) (p : ResearchProgress) : Prop :=
  p.current_depth = p.total_depth ∧ p.current_breadth = p.total_breadth ∧
  ∃ i, (i = 0 ∧ p.total_depth = d ∧ p.total_breadth = b) ∨
       (0 < i ∧ i < d ∧ p.total_depth = d - i ∧ p.total_breadth = max 1 (b >>> i))

/-- The spec-side description of the Query Planner (spec section 4.2), written
    from the spec wording for the refinement claim C9: one query per non-blank
    line of the completion response, the stripped line serving as both the
    query text and the research goal, truncated to max_queries. -/
def planSpec (text : String) (max_queries : Nat) : List SerpQuery :=
  ((((splitLines text).map stripStr).filter (fun l => l ≠ "")).map
    (fun t => SerpQuery.mk t t)).take max_queries

/-- Invariant of chunks emitted by merge_splits for a fixed separator: the
    trimmed separator-join of a nonempty group of pieces, each shorter than
    chunk_size, whose summed length is at most chunk_size. -/
def chunkInv (cs : Nat) (sep : List Char) (doc : List Char) : Prop :=
  ∃ group, group ≠ [] ∧ doc = strip (List.intercalate sep group) ∧
    sumLen group ≤ cs ∧ ∀ p ∈ group, p.length < cs

/-- A concrete environment whose search collaborator always raises: the
    completion service plans exactly one query per level. -/
def env1 : Env :=
  ⟨fun _ => "q1", fun _ _ => Except.error ("network")⟩

/-- A concrete environment whose completion service always answers with a
    bullet learning followed by a follow-up line, and whose search always
    succeeds with one document. -/
def env3 : Env :=
  ⟨fun _ => "- l1\nf1", fun _ _ => Except.ok [⟨"u1", "md"⟩]⟩

/-! ## Lemmas about the chunker -/

lemma isPrefixList_length {sep l : List Char} (h : isPrefixList sep l = true) :
    sep.length ≤ l.length := by
  induction sep generalizing l with
  | nil => simp
  | cons a as ih =>
    cases l with
    | nil => simp [isPrefixList] at h
    | cons b bs =>
      simp only [isPrefixList, Bool.and_eq_true] at h
      simpa using ih h.2

lemma splitOnAux_parts {sep : List Char} (hsep : sep ≠ []) :
    ∀ fuel text acc, text.length ≤ fuel →
      ∀ p ∈ splitOnAux sep fuel text acc,
        p.length ≤ acc.length + text.length ∧
        (containsSub sep text = true → p.length + sep.length ≤ acc.length + text.length) := by
  have hsl : 1 ≤ sep.length := by
    cases sep with
    | nil => exact absurd rfl hsep
    | cons a as => simp
  intro fuel
  induction fuel with
  | zero =>
    intro text acc hle p hp
    have htext : text = [] := by
      cases text with
      | nil => rfl
      | cons c rest => simp at hle
    subst htext
    simp only [splitOnAux, List.mem_singleton] at hp
    subst hp
    refine ⟨by simp, fun hcon => ?_⟩
    simp [containsSub, List.isEmpty_iff] at hcon
    exact absurd hcon hsep
  | succ n ih =>
    intro text acc hle p hp
    cases text with
    | nil =>
      simp only [splitOnAux, List.mem_singleton] at hp
      subst hp
      refine ⟨by simp, fun hcon => ?_⟩
      simp [containsSub, List.isEmpty_iff] at hcon
      exact absurd hcon hsep
    | cons c rest =>
      by_cases hpre : isPrefixList sep (c :: rest) = true
      · have hplen : sep.length ≤ rest.length + 1 := by
          simpa using isPrefixList_length hpre
        simp only [splitOnAux, if_pos hpre, List.mem_cons] at hp
        rcases hp with hp | hp
        · subst hp
          constructor
          · simp
          · intro _
            simp only [List.length_cons]
            omega
        · have hdrop : ((c :: rest).drop sep.length).length = rest.length + 1 - sep.length := by
            simp
          have hfuel : ((c :: rest).drop sep.length).length ≤ n := by
            simp only [List.length_cons] at hle
            rw [hdrop]
            omega
          have hrec := ih ((c :: rest).drop sep.length) [] hfuel p hp
          have h1 := hrec.1
          rw [hdrop] at h1
          simp only [List.length_nil, Nat.zero_add] at h1
          constructor
          · simp only [List.length_cons]
            omega
          · intro _
            simp only [List.length_cons]
            omega
      · simp only [splitOnAux, if_neg hpre] at hp
        have hrec := ih rest (acc ++ [c]) (by simp at hle ⊢; omega) p hp
        have e1 : (acc ++ [c]).length = acc.length + 1 := by simp
        have h1 := hrec.1
        rw [e1] at h1
        constructor
        · simp only [List.length_cons]
          omega
        · intro hcon
          simp only [containsSub, Bool.or_eq_true] at hcon
          rcases hcon with hcon | hcon
          · exact absurd hcon hpre
          · have h2 := hrec.2 hcon
            rw [e1] at h2
            simp only [List.length_cons]
            omega

lemma splitOnSep_shorter {sep text : List Char} (hsep : sep ≠ [])
    (hocc : containsSub sep text = true) :
    ∀ p ∈ splitOnSep sep text, p.length < text.length := by
  intro p hp
  have hsl : 1 ≤ sep.length := by
    cases sep with
    | nil => exact absurd rfl hsep
    | cons a as => simp
  have h := splitOnAux_parts hsep text.length text [] (Nat.le_refl _) p hp
  have h2 := h.2 hocc
  simp only [List.length_nil, Nat.zero_add] at h2
  omega

lemma pickSeparator_default (text : List Char) :
    pickSeparator defaultSeparators text ∈ defaultSeparators ∧
    (pickSeparator defaultSeparators text = [] ∨
      containsSub (pickSeparator defaultSeparators text) text = true) := by
  unfold pickSeparator
  cases hf : defaultSeparators.find? (fun s => s.isEmpty || containsSub s text) with
  | none => exact ⟨by decide, Or.inl (by decide)⟩
  | some s =>
    have hmem := List.mem_of_find?_eq_some hf
    have hpred := List.find?_some hf
    simp only [Bool.or_eq_true, List.isEmpty_iff] at hpred
    exact ⟨hmem, hpred⟩

lemma joinDocs_some {docs : List (List Char)} {sep doc : List Char}
    (h : joinDocs docs sep = some doc) :
    doc = strip (List.intercalate sep docs) ∧ docs ≠ [] := by
  constructor
  · unfold joinDocs at h
    by_cases he : (strip (List.intercalate sep docs)).isEmpty
    · simp [he] at h
    · simp [he] at h
      exact h.symm
  · intro hnil
    subst hnil
    have : joinDocs [] sep = none := rfl
    rw [this] at h
    exact Option.noConfusion h

lemma evictPieces_spec (ov cs dLen : Nat) :
    ∀ (cur : List (List Char)) (total : Nat), total = sumLen cur →
      (evictPieces ov cs dLen cur total).2 = sumLen (evictPieces ov cs dLen cur total).1 ∧
      (∀ p ∈ (evictPieces ov cs dLen cur total).1, p ∈ cur) ∧
      ((evictPieces ov cs dLen cur total).2 + dLen ≤ cs ∨
        (evictPieces ov cs dLen cur total).2 = 0) := by
  intro cur
  induction cur with
  | nil =>
    intro total htot
    simp [sumLen] at htot
    subst htot
    exact ⟨by simp [evictPieces, sumLen], by simp [evictPieces], Or.inr rfl⟩
  | cons c0 rest ih =>
    intro total htot
    have hsum : total = c0.length + sumLen rest := by
      simpa [sumLen] using htot
    by_cases hc : ov < total ∨ (cs < total + dLen ∧ 0 < total)
    · have hrw : evictPieces ov cs dLen (c0 :: rest) total =
          evictPieces ov cs dLen rest (total - c0.length) := by
        simp [evictPieces, if_pos hc]
      rw [hrw]
      have hrec := ih (total - c0.length) (by omega)
      exact ⟨hrec.1, fun p hp => List.mem_cons_of_mem _ (hrec.2.1 p hp), hrec.2.2⟩
    · have hrw : evictPieces ov cs dLen (c0 :: rest) total = (c0 :: rest, total) := by
        simp [evictPieces, if_neg hc]
      rw [hrw]
      refine ⟨htot, fun p hp => hp, ?_⟩
      push_neg at hc
      omega

lemma mergeStep_inv (cs ov : Nat) (sep : List Char)
    (st : List (List Char) × List (List Char) × Nat) (d : List Char)
    (hd : d.length < cs)
    (hdocs : ∀ doc ∈ st.1, chunkInv cs sep doc)
    (htot : st.2.2 = sumLen st.2.1) (hle : st.2.2 ≤ cs)
    (hp : ∀ p ∈ st.2.1, p.length < cs) :
    (∀ doc ∈ (mergeStep cs ov sep st d).1, chunkInv cs sep doc) ∧
    (mergeStep cs ov sep st d).2.2 = sumLen (mergeStep cs ov sep st d).2.1 ∧
    (mergeStep cs ov sep st d).2.2 ≤ cs ∧
    (∀ p ∈ (mergeStep cs ov sep st d).2.1, p.length < cs) := by
  obtain ⟨docs, current, total⟩ := st
  simp only at hdocs htot hle hp
  by_cases h1 : cs ≤ total + d.length
  · cases current with
    | nil =>
      have hA : (mergeStep cs ov sep (docs, [], total) d).1 = docs := by
        simp [mergeStep, if_pos h1]
      have hB : (mergeStep cs ov sep (docs, [], total) d).2.1 = [d] := by
        simp [mergeStep, if_pos h1]
      have hC : (mergeStep cs ov sep (docs, [], total) d).2.2 = total + d.length := by
        simp [mergeStep, if_pos h1]
      have htz : total = 0 := by simpa [sumLen] using htot
      rw [hA, hB, hC]
      refine ⟨hdocs, by simp [sumLen, htz], by omega, ?_⟩
      intro p hp2
      have : p = d := by simpa using hp2
      subst this
      exact hd
    | cons c0 cur =>
      have hev := evictPieces_spec ov cs d.length (c0 :: cur) total htot
      have hB : (mergeStep cs ov sep (docs, c0 :: cur, total) d).2.1 =
          (evictPieces ov cs d.length (c0 :: cur) total).1 ++ [d] := by
        simp only [mergeStep, if_pos h1]
      have hC : (mergeStep cs ov sep (docs, c0 :: cur, total) d).2.2 =
          (evictPieces ov cs d.length (c0 :: cur) total).2 + d.length := by
        simp only [mergeStep, if_pos h1]
      have hmain : (mergeStep cs ov sep (docs, c0 :: cur, total) d).2.2 =
            sumLen (mergeStep cs ov sep (docs, c0 :: cur, total) d).2.1 ∧
          (mergeStep cs ov sep (docs, c0 :: cur, total) d).2.2 ≤ cs ∧
          (∀ p ∈ (mergeStep cs ov sep (docs, c0 :: cur, total) d).2.1, p.length < cs) := by
        rw [hB, hC]
        refine ⟨?_, ?_, ?_⟩
        · have h2 := hev.1
          simp only [sumLen, List.map_append, List.sum_append] at h2 ⊢
          simp [h2]
        · rcases hev.2.2 with h2 | h2 <;> omega
        · intro p hp2
          rcases List.mem_append.mp hp2 with hp2 | hp2
          · exact hp p (hev.2.1 p hp2)
          · have : p = d := by simpa using hp2
            subst this
            exact hd
      refine ⟨?_, hmain.1, hmain.2.1, hmain.2.2⟩
      intro doc hdoc
      cases hj : joinDocs (c0 :: cur) sep with
      | none =>
        have hA : (mergeStep cs ov sep (docs, c0 :: cur, total) d).1 = docs := by
          simp only [mergeStep, if_pos h1, hj]
        rw [hA] at hdoc
        exact hdocs doc hdoc
      | some doc2 =>
        have hA : (mergeStep cs ov sep (docs, c0 :: cur, total) d).1 = docs ++ [doc2] := by
          simp only [mergeStep, if_pos h1, hj]
        rw [hA] at hdoc
        rcases List.mem_append.mp hdoc with hdoc | hdoc
        · exact hdocs doc hdoc
        · have hde : doc = doc2 := by simpa using hdoc
          subst hde
          exact ⟨c0 :: cur, by simp, (joinDocs_some hj).1, by omega, hp⟩
  · have hA : (mergeStep cs ov sep (docs, current, total) d).1 = docs := by
      simp [mergeStep, if_neg h1]
    have hB : (mergeStep cs ov sep (docs, current, total) d).2.1 = current ++ [d] := by
      simp [mergeStep, if_neg h1]
    have hC : (mergeStep cs ov sep (docs, current, total) d).2.2 = total + d.length := by
      simp [mergeStep, if_neg h1]
    rw [hA, hB, hC]
    refine ⟨hdocs, ?_, by omega, ?_⟩
    · simp only [sumLen, List.map_append, List.sum_append] at htot ⊢
      simp [htot]
    · intro p hp2
      rcases List.mem_append.mp hp2 with hp2 | hp2
      · exact hp p hp2
      · have : p = d := by simpa using hp2
        subst this
        exact hd


lemma mergeFold_inv (cs ov : Nat) (sep : List Char) :
    ∀ (splits : List (List Char)) (st : List (List Char) × List (List Char) × Nat),
      (∀ s ∈ splits, s.length < cs) →
      (∀ doc ∈ st.1, chunkInv cs sep doc) →
      st.2.2 = sumLen st.2.1 → st.2.2 ≤ cs → (∀ p ∈ st.2.1, p.length < cs) →
      (∀ doc ∈ (splits.foldl (mergeStep cs ov sep) st).1, chunkInv cs sep doc) ∧
      (splits.foldl (mergeStep cs ov sep) st).2.2 =
        sumLen (splits.foldl (mergeStep cs ov sep) st).2.1 ∧
      (splits.foldl (mergeStep cs ov sep) st).2.2 ≤ cs ∧
      (∀ p ∈ (splits.foldl (mergeStep cs ov sep) st).2.1, p.length < cs) := by
  intro splits
  induction splits with
  | nil =>
    intro st _ hdocs htot hle hp
    exact ⟨hdocs, htot, hle, hp⟩
  | cons d rest ih =>
    intro st hs hdocs htot hle hp
    have hd : d.length < cs := hs d (List.mem_cons_self _ _)
    have hstep := mergeStep_inv cs ov sep st d hd hdocs htot hle hp
    simp only [List.foldl_cons]
    exact ih (mergeStep cs ov sep st d)
      (fun s hs2 => hs s (List.mem_cons_of_mem _ hs2))
      hstep.1 hstep.2.1 hstep.2.2.1 hstep.2.2.2

lemma mergeSplits_chunks (cs ov : Nat) (sep : List Char) (splits : List (List Char))
    (hs : ∀ s ∈ splits, s.length < cs) :
    ∀ doc ∈ mergeSplits cs ov splits sep, chunkInv cs sep doc := by
  intro doc hdoc
  have hinv := mergeFold_inv cs ov sep splits ([], [], 0) hs
    (by intro doc2 h; simp at h) (by simp [sumLen]) (by simp) (by intro p h; simp at h)
  simp only [mergeSplits] at hdoc
  cases hj : joinDocs (splits.foldl (mergeStep cs ov sep) ([], [], 0)).2.1 sep with
  | none =>
    rw [hj] at hdoc
    exact hinv.1 doc hdoc
  | some doc2 =>
    rw [hj] at hdoc
    simp only at hdoc
    rcases List.mem_append.mp hdoc with hdoc | hdoc
    · exact hinv.1 doc hdoc
    · have hde : doc = doc2 := by simpa using hdoc
      subst hde
      refine ⟨(splits.foldl (mergeStep cs ov sep) ([], [], 0)).2.1,
        (joinDocs_some hj).2, (joinDocs_some hj).1, ?_, hinv.2.2.2⟩
      rw [← hinv.2.1]
      exact hinv.2.2.1

lemma processSplits_sound (cs : Nat) (P : List Char → Prop)
    (mergeFn : List (List Char) → List (List Char))
    (recurse : List Char → Option (List (List Char)))
    (hmerge : ∀ gs, (∀ s ∈ gs, s.length < cs) → ∀ doc ∈ mergeFn gs, P doc)
    (hrec : ∀ s res, recurse s = some res → ∀ chunk ∈ res, P chunk) :
    ∀ splits good, (∀ g ∈ good, g.length < cs) →
      ∀ res, processSplits cs mergeFn recurse splits good = some res →
        ∀ chunk ∈ res, P chunk := by
  intro splits
  induction splits with
  | nil =>
    intro good hg res hres chunk hc
    simp only [processSplits, Option.some_inj] at hres
    subst hres
    by_cases he : good.isEmpty
    · rw [if_pos he] at hc
      simp at hc
    · rw [if_neg he] at hc
      exact hmerge good hg chunk hc
  | cons s rest ih =>
    intro good hg res hres chunk hc
    by_cases hlen : s.length < cs
    · rw [processSplits, if_pos hlen] at hres
      refine ih (good ++ [s]) ?_ res hres chunk hc
      intro g hg2
      rcases List.mem_append.mp hg2 with hg2 | hg2
      · exact hg g hg2
      · have : g = s := by simpa using hg2
        subst this
        exact hlen
    · rw [processSplits, if_neg hlen] at hres
      cases hrs : recurse s with
      | none => rw [hrs] at hres; simp at hres
      | some sub =>
        rw [hrs] at hres
        cases hps : processSplits cs mergeFn recurse rest [] with
        | none => rw [hps] at hres; simp at hres
        | some tail =>
          rw [hps] at hres
          have hres2 : (if good.isEmpty then [] else mergeFn good) ++ sub ++ tail = res :=
            Option.some.inj hres
          subst hres2
          rcases List.mem_append.mp hc with hc | hc
          · rcases List.mem_append.mp hc with hc | hc
            · by_cases he : good.isEmpty
              · rw [if_pos he] at hc
                simp at hc
              · rw [if_neg he] at hc
                exact hmerge good hg chunk hc
            · exact hrec s sub hrs chunk hc
          · exact ih [] (by intro g hg2; simp at hg2) tail hps chunk hc

lemma processSplits_isSome (cs : Nat) (mergeFn : List (List Char) → List (List Char))
    (recurse : List Char → Option (List (List Char))) :
    ∀ splits good, (∀ s ∈ splits, s.length < cs ∨ (recurse s).isSome = true) →
      (processSplits cs mergeFn recurse splits good).isSome = true := by
  intro splits
  induction splits with
  | nil => intro good _; simp [processSplits]
  | cons s rest ih =>
    intro good hs
    by_cases hlen : s.length < cs
    · rw [processSplits, if_pos hlen]
      exact ih (good ++ [s]) (fun s2 h2 => hs s2 (List.mem_cons_of_mem _ h2))
    · rw [processSplits, if_neg hlen]
      rcases hs s (List.mem_cons_self _ _) with h | h
      · exact absurd h hlen
      · cases hrs : recurse s with
        | none => rw [hrs] at h; simp at h
        | some sub =>
          have htail := ih [] (fun s2 h2 => hs s2 (List.mem_cons_of_mem _ h2))
          cases hps : processSplits cs mergeFn recurse rest [] with
          | none => rw [hps] at htail; simp at htail
          | some tail => simp [hrs, hps]

lemma splitTextFuel_sound (cs ov : Nat) :
    ∀ fuel text res, splitTextFuel cs ov fuel text = some res →
      ∀ chunk ∈ res, goodChunk cs chunk := by
  intro fuel
  induction fuel with
  | zero => intro text res h; simp [splitTextFuel] at h
  | succ n ih =>
    intro text res h chunk hc
    by_cases ht : text.isEmpty
    · rw [splitTextFuel, if_pos ht, Option.some_inj] at h
      subst h
      simp at hc
    · rw [splitTextFuel, if_neg ht] at h
      have hsep := pickSeparator_default text
      refine processSplits_sound cs (goodChunk cs)
        (fun good => mergeSplits cs ov good (pickSeparator defaultSeparators text))
        (splitTextFuel cs ov n) ?_ ?_ _ [] (by intro g hg; simp at hg) res h chunk hc
      · intro gs hgs doc hdoc
        obtain ⟨group, hgrp⟩ := mergeSplits_chunks cs ov
          (pickSeparator defaultSeparators text) gs hgs doc hdoc
        exact ⟨pickSeparator defaultSeparators text, group, hsep.1, hgrp.1, hgrp.2.1,
          hgrp.2.2.1, hgrp.2.2.2⟩
      · intro s res2 hs2 chunk2 hc2
        exact ih s res2 hs2 chunk2 hc2

lemma splitTextFuel_isSome (cs ov : Nat) (h2 : 2 ≤ cs) :
    ∀ fuel text, text.length < fuel → (splitTextFuel cs ov fuel text).isSome = true := by
  intro fuel
  induction fuel with
  | zero => intro text h; omega
  | succ n ih =>
    intro text hlt
    by_cases ht : text.isEmpty
    · simp [splitTextFuel, ht]
    · rw [splitTextFuel, if_neg ht]
      have hsep := pickSeparator_default text
      apply processSplits_isSome
      intro s hs
      by_cases hse : (pickSeparator defaultSeparators text).isEmpty
      · left
        rw [if_pos hse] at hs
        obtain ⟨c, _, hc⟩ := List.mem_map.mp hs
        rw [← hc]
        simp
        omega
      · rw [if_neg hse] at hs
        by_cases hsl : s.length < cs
        · left; exact hsl
        · right
          apply ih
          have hocc : containsSub (pickSeparator defaultSeparators text) text = true := by
            rcases hsep.2 with hnil | hocc
            · rw [hnil] at hse
              simp at hse
            · exact hocc
          have hne : pickSeparator defaultSeparators text ≠ [] := by
            intro hnil
            rw [hnil] at hse
            simp at hse
          have := splitOnSep_shorter hne hocc s hs
          omega

lemma splitTextFuel_one_x (n : Nat) : splitTextFuel 1 0 n ['x'] = none := by
  induction n with
  | zero => rfl
  | succ m ih =>
    have hsp : pickSeparator defaultSeparators ['x'] = [] := by decide
    rw [splitTextFuel]
    simp only [hsp]
    simp [processSplits, ih]

/-! ## Lemmas about ordered-set deduplication -/

lemma dedupFirstAux_mem {α : Type} [DecidableEq α] (seen : List α) (l : List α) (x : α) :
    x ∈ dedupFirstAux seen l ↔ x ∈ l ∧ x ∉ seen := by
  induction l generalizing seen with
  | nil => simp [dedupFirstAux]
  | cons y ys ih =>
    by_cases hy : y ∈ seen
    · rw [dedupFirstAux, if_pos hy, ih]
      constructor
      · rintro ⟨hx, hn⟩
        exact ⟨List.mem_cons_of_mem _ hx, hn⟩
      · rintro ⟨hx, hn⟩
        rcases List.mem_cons.mp hx with hx | hx
        · subst hx; exact absurd hy hn
        · exact ⟨hx, hn⟩
    · rw [dedupFirstAux, if_neg hy]
      constructor
      · intro hx
        rcases List.mem_cons.mp hx with hx | hx
        · subst hx; exact ⟨List.mem_cons_self _ _, hy⟩
        · have := (ih (seen ++ [y])).mp hx
          refine ⟨List.mem_cons_of_mem _ this.1, fun hn => this.2 ?_⟩
          simp [hn]
      · rintro ⟨hx, hn⟩
        rcases List.mem_cons.mp hx with hx | hx
        · subst hx; exact List.mem_cons_self _ _
        · by_cases hxy : x = y
          · subst hxy; exact List.mem_cons_self _ _
          · refine List.mem_cons_of_mem _ ((ih (seen ++ [y])).mpr ⟨hx, fun h => ?_⟩)
            rcases List.mem_append.mp h with h | h
            · exact hn h
            · exact hxy (by simpa using h)

lemma dedupFirstAux_nodup {α : Type} [DecidableEq α] (seen : List α) (l : List α) :
    (dedupFirstAux seen l).Nodup := by
  induction l generalizing seen with
  | nil => simp [dedupFirstAux]
  | cons y ys ih =>
    by_cases hy : y ∈ seen
    · rw [dedupFirstAux, if_pos hy]
      exact ih seen
    · rw [dedupFirstAux, if_neg hy]
      refine List.nodup_cons.mpr ⟨fun hmem => ?_, ih (seen ++ [y])⟩
      have := (dedupFirstAux_mem (seen ++ [y]) ys y).mp hmem
      exact this.2 (by simp)

lemma dedupFirstAux_sublist {α : Type} [DecidableEq α] (seen : List α) (l : List α) :
    (dedupFirstAux seen l).Sublist l := by
  induction l generalizing seen with
  | nil => simp [dedupFirstAux]
  | cons y ys ih =>
    by_cases hy : y ∈ seen
    · rw [dedupFirstAux, if_pos hy]
      exact (ih seen).cons _
    · rw [dedupFirstAux, if_neg hy]
      exact (ih (seen ++ [y])).cons₂ _

lemma dedupFirstAux_congr {α : Type} [DecidableEq α] {seen1 seen2 : List α}
    (h : ∀ a, a ∈ seen1 ↔ a ∈ seen2) : ∀ l, dedupFirstAux seen1 l = dedupFirstAux seen2 l := by
  intro l
  induction l generalizing seen1 seen2 with
  | nil => rfl
  | cons y ys ih =>
    by_cases hy : y ∈ seen1
    · rw [dedupFirstAux, if_pos hy, dedupFirstAux, if_pos ((h y).mp hy)]
      exact ih h
    · rw [dedupFirstAux, if_neg hy, dedupFirstAux, if_neg (fun h2 => hy ((h y).mpr h2))]
      refine congrArg _ (ih ?_)
      intro a
      simp [h a]

lemma dedupFirstAux_append {α : Type} [DecidableEq α] (seen l1 l2 : List α) :
    dedupFirstAux seen (l1 ++ l2) =
      dedupFirstAux seen l1 ++ dedupFirstAux (seen ++ l1) l2 := by
  induction l1 generalizing seen with
  | nil =>
    simp only [List.nil_append, dedupFirstAux, List.append_nil]
  | cons y ys ih =>
    by_cases hy : y ∈ seen
    · rw [List.cons_append, dedupFirstAux, if_pos hy, dedupFirstAux, if_pos hy, ih]
      refine congrArg _ (dedupFirstAux_congr ?_ l2)
      intro a
      simp only [List.mem_append, List.mem_cons]
      constructor
      · rintro (h | h)
        · exact Or.inl h
        · exact Or.inr (Or.inr h)
      · rintro (h | h | h)
        · exact Or.inl h
        · subst h; exact Or.inl hy
        · exact Or.inr h
      
    · rw [List.cons_append, dedupFirstAux, if_neg hy, dedupFirstAux, if_neg hy, ih]
      rw [List.cons_append]
      refine congrArg _ (congrArg _ (dedupFirstAux_congr ?_ l2))
      intro a
      simp only [List.mem_append, List.mem_cons]
      tauto

lemma dedupFirst_mem {α : Type} [DecidableEq α] (l : List α) (x : α) :
    x ∈ dedupFirst l ↔ x ∈ l := by
  rw [dedupFirst, dedupFirstAux_mem]
  simp

lemma dedupFirst_nodup {α : Type} [DecidableEq α] (l : List α) : (dedupFirst l).Nodup :=
  dedupFirstAux_nodup [] l

lemma dedupFirst_sublist {α : Type} [DecidableEq α] (l : List α) :
    (dedupFirst l).Sublist l :=
  dedupFirstAux_sublist [] l

lemma dedupFirst_append_isPrefix {α : Type} [DecidableEq α] (l1 l2 : List α) :
    (dedupFirst l1) <+: dedupFirst (l1 ++ l2) := by
  refine ⟨dedupFirstAux ([] ++ l1) l2, ?_⟩
  rw [dedupFirst, dedupFirst, dedupFirstAux_append]

/-! ## Lemmas about the orchestrator -/

lemma deep_research_eq_body (env : Env) (d : Nat) (q : String) (b : Nat)
    (ls vs : List String) :
    deep_research env d q b ls vs = drBody env (drChild env d) d q b ls vs := by
  cases d <;> rfl

lemma drLoop_results (env : Env) (child : ChildFn) (b d : Nat)
    (ls vs : List String) :
    ∀ (qs : List SerpQuery) (prog : ResearchProgress) (acc : List ResearchResult),
      (drLoop env child b d ls vs qs prog acc).1 =
        acc ++ qs.filterMap (processQuery env child b d ls vs) := by
  intro qs
  induction qs with
  | nil => intro prog acc; simp [drLoop]
  | cons q rest ih =>
    intro prog acc
    simp only [drLoop, List.filterMap_cons, processQuery]
    cases hs : env.search q.query 5 with
    | error e =>
      exact ih prog acc
    | ok res =>
      simp only []
      by_cases hd : 0 < d - 1
      · rw [if_pos hd, if_pos hd, ih]
        simp
      · rw [if_neg hd, if_neg hd, ih]
        simp

lemma drLoop_final (env : Env) (child : ChildFn) (b d : Nat)
    (ls vs : List String) :
    ∀ (qs : List SerpQuery) (prog : ResearchProgress) (acc : List ResearchResult),
      (drLoop env child b d ls vs qs prog acc).2.2 =
        { prog with completed_queries :=
            prog.completed_queries + (qs.filter (searchOk env)).length } := by
  intro qs
  induction qs with
  | nil =>
    intro prog acc
    cases prog
    simp [drLoop]
  | cons q rest ih =>
    intro prog acc
    simp only [drLoop]
    cases hs : env.search q.query 5 with
    | error e =>
      have hok : searchOk env q = false := by simp [searchOk, hs]
      rw [List.filter_cons_of_neg (by simp [hok])]
      simp only []
      exact ih prog acc
    | ok res =>
      have hok : searchOk env q = true := by simp [searchOk, hs]
      rw [List.filter_cons_of_pos hok]
      simp only []
      by_cases hd : 0 < d - 1
      · rw [if_pos hd, ih]
        cases prog
        simp only [List.length_cons]
        congr 1
        omega
      · rw [if_neg hd, ih]
        cases prog
        simp only [List.length_cons]
        congr 1
        omega

lemma drLoop_trace (env : Env) (child : ChildFn) (b d : Nat)
    (ls vs : List String) :
    ∀ (qs : List SerpQuery) (prog : ResearchProgress) (acc : List ResearchResult)
      (p : ResearchProgress), p ∈ (drLoop env child b d ls vs qs prog acc).2.1 →
      (p.current_depth = prog.current_depth ∧ p.total_depth = prog.total_depth ∧
       p.current_breadth = prog.current_breadth ∧ p.total_breadth = prog.total_breadth) ∨
      (0 < d - 1 ∧ ∃ q2 ls2 vs2, p ∈ (child q2 (max 1 (b / 2)) ls2 vs2).2.1) := by
  intro qs
  induction qs with
  | nil =>
    intro prog acc p hp
    simp [drLoop] at hp
  | cons q rest ih =>
    intro prog acc p hp
    simp only [drLoop] at hp
    cases hs : env.search q.query 5 with
    | error e =>
      rw [hs] at hp
      simp only [] at hp
      exact ih prog acc p hp
    | ok res =>
      rw [hs] at hp
      simp only [] at hp
      by_cases hd : 0 < d - 1
      · rw [if_pos hd] at hp
        simp only [List.mem_append, List.mem_cons] at hp
        rcases hp with hp | hp | hp
        · exact Or.inr ⟨hd, _, _, _, hp⟩
        · subst hp
          exact Or.inl ⟨rfl, rfl, rfl, rfl⟩
        · rcases ih _ _ p hp with h | h
          · exact Or.inl h
          · exact Or.inr h
      · rw [if_neg hd] at hp
        simp only [List.mem_cons] at hp
        rcases hp with hp | hp
        · subst hp
          exact Or.inl ⟨rfl, rfl, rfl, rfl⟩
        · rcases ih _ _ p hp with h | h
          · exact Or.inl h
          · exact Or.inr h

lemma deep_research_result (env : Env) (d : Nat) (q : String) (b : Nat)
    (ls vs : List String) :
    (deep_research env d q b ls vs).1 =
      ⟨dedupFirst (rawLearnings env q b d ls vs),
       dedupFirst (rawVisited env q b d ls vs)⟩ := by
  rw [deep_research_eq_body]
  simp only [drBody, rawLearnings, rawVisited]
  rw [drLoop_results]
  simp

lemma deep_research_trace_head (env : Env) (d : Nat) (q : String) (b : Nat)
    (ls vs : List String) :
    ∃ t, (deep_research env d q b ls vs).2.1 =
      ({ current_depth := d, total_depth := d, current_breadth := b,
         total_breadth := b,
         current_query := (generate_serp_queries env q b ls).head?.map (fun q2 => q2.query),
         total_queries := (generate_serp_queries env q b ls).length,
         completed_queries := 0 } : ResearchProgress) :: t := by
  rw [deep_research_eq_body]
  simp only [drBody]
  exact ⟨_, rfl⟩

lemma maxShiftAux (x j : Nat) (hj : 1 ≤ j) :
    max 1 ((max 1 x) >>> j) = max 1 (x >>> j) := by
  rcases Nat.eq_zero_or_pos x with hx | hx
  · subst hx
    have h1 : (1 : Nat) >>> j = 0 := by
      rw [Nat.shiftRight_eq_div_pow]
      have h2 : (2 : Nat) ^ 1 ≤ 2 ^ j := Nat.pow_le_pow_right (by omega) hj
      have h3 : 1 < 2 ^ j := by
        have h4 : (2 : Nat) ^ 1 = 2 := by norm_num
        omega
      exact Nat.div_eq_of_lt h3
    have hmax : max 1 0 = 1 := rfl
    rw [hmax, h1, Nat.zero_shiftRight]
  · rw [Nat.max_eq_right hx]

lemma trace_shape (env : Env) :
    ∀ (d : Nat) (q : String) (b : Nat) (ls vs : List String) (p : ResearchProgress),
      p ∈ (deep_research env d q b ls vs).2.1 → levelShape b d p := by
  intro d
  induction d with
  | zero =>
    intro q b ls vs p hp
    rw [deep_research_eq_body] at hp
    simp only [drBody, List.mem_cons] at hp
    rcases hp with hp | hp
    · subst hp
      exact ⟨rfl, rfl, 0, Or.inl ⟨rfl, rfl, rfl⟩⟩
    · rcases drLoop_trace env (drChild env 0) b 0 ls vs _ _ _ p hp with h | h
      · exact ⟨h.1.trans h.2.1.symm, h.2.2.1.trans h.2.2.2.symm, 0,
          Or.inl ⟨rfl, h.2.1, h.2.2.2⟩⟩
      · exact absurd h.1 (by omega)
  | succ n ih =>
    intro q b ls vs p hp
    rw [deep_research_eq_body] at hp
    simp only [drBody, List.mem_cons] at hp
    rcases hp with hp | hp
    · subst hp
      exact ⟨rfl, rfl, 0, Or.inl ⟨rfl, rfl, rfl⟩⟩
    · rcases drLoop_trace env (drChild env (n + 1)) b (n + 1) ls vs _ _ _ p hp with h | h
      · exact ⟨h.1.trans h.2.1.symm, h.2.2.1.trans h.2.2.2.symm, 0,
          Or.inl ⟨rfl, h.2.1, h.2.2.2⟩⟩
      · obtain ⟨hd1, q2, ls2, vs2, hp2⟩ := h
        have hn1 : 1 ≤ n := by omega
        have hp3 : p ∈ (deep_research env n q2 (max 1 (b / 2)) ls2 vs2).2.1 := hp2
        obtain ⟨hcd, hcb, i, hc⟩ := ih q2 (max 1 (b / 2)) ls2 vs2 p hp3
        refine ⟨hcd, hcb, i + 1, Or.inr ?_⟩
        have hb2 : b / 2 = b >>> 1 := (Nat.shiftRight_one b).symm
        rcases hc with ⟨hi0, htd, htb⟩ | ⟨hi1, hilt, htd, htb⟩
        · subst hi0
          refine ⟨by omega, by omega, by omega, ?_⟩
          rw [htb, hb2]
        · refine ⟨by omega, by omega, by omega, ?_⟩
          rw [htb, hb2, maxShiftAux (b >>> 1) i hi1, ← Nat.shiftRight_add,
            Nat.add_comm 1 i]

lemma filterMap_processQuery_filter (env : Env) (child : ChildFn) (b d : Nat)
    (ls vs : List String) (qs : List SerpQuery) :
    qs.filterMap (processQuery env child b d ls vs) =
      (qs.filter (searchOk env)).filterMap (processQuery env child b d ls vs) := by
  induction qs with
  | nil => rfl
  | cons a as iha =>
    cases hs : env.search a.query 5 with
    | error e =>
      rw [List.filter_cons_of_neg (by simp [searchOk, hs]), List.filterMap_cons]
      have hpq : processQuery env child b d ls vs a = none := by
        simp [processQuery, hs]
      rw [hpq, iha]
    | ok res =>
      rw [List.filter_cons_of_pos (by simp [searchOk, hs])]
      simp only [List.filterMap_cons]
      rw [iha]

lemma parseLines_eq (lines : List String) :
    (lines.filterMap fun line =>
      if stripStr line ≠ "" then some (SerpQuery.mk (stripStr line) (stripStr line))
      else none) =
    ((lines.map stripStr).filter (fun l => l ≠ "")).map (fun t => SerpQuery.mk t t) := by
  induction lines with
  | nil => rfl
  | cons a as ih =>
    by_cases h : stripStr a = ""
    · simpa [List.filterMap_cons, List.filter_cons, h] using ih
    · simpa [List.filterMap_cons, List.filter_cons, h] using ih

/-! ## Claims -/

/-- C1, counterexample to the claim as stated: with a search collaborator that
    always raises, a level that plans one query finishes its loop with
    completed_queries still 0, because the `continue` on failure skips the
    increment; the claim requires it to reach 1 (and to increase by one for the
    skipped query). -/
theorem c1_counterexample :
    (generate_serp_queries env1 ("topic") 1 []).length = 1 ∧
    (deep_research env1 1 ("topic") 1 [] []).2.2.total_queries = 1 ∧
    (deep_research env1 1 ("topic") 1 [] []).2.2.completed_queries = 0 := by
  refine ⟨by decide, by decide, by decide⟩

/-- C1, amended: within one level of the traversal, completed_queries is
    incremented by exactly one after each query whose search succeeded; a query
    skipped because its search raised is not counted.  After the loop the
    level's counter equals the number of planned queries whose search
    succeeded (which is the planned count n only when no search failed), while
    total_queries equals n. -/
theorem c1_completed_counts_successes (env : Env) (q : String) (b d : Nat)
    (ls vs : List String) :
    (deep_research env d q b ls vs).2.2.completed_queries =
      ((generate_serp_queries env q b ls).filter (searchOk env)).length ∧
    (deep_research env d q b ls vs).2.2.total_queries =
      (generate_serp_queries env q b ls).length := by
  constructor
  · rw [deep_research_eq_body]
    simp only [drBody]
    rw [drLoop_final]
    simp
  · rw [deep_research_eq_body]
    simp only [drBody]
    rw [drLoop_final]

/-- C2, counterexample to the claim as stated: with chunk_size 9 and overlap 0,
    split of the text aaaa-newline-newline-bbbb emits the whole joined text as
    a single chunk of length 10 > 9, even though every partitioned piece has
    length 4 < 9 (third conjunct): the chunk is a merge of two pieces, not a
    single oversized atomic piece, yet it exceeds chunk_size because merge
    counts only piece lengths, never the joining separator characters. -/
theorem c2_counterexample :
    splitText 9 0 (("aaaa\n\nbbbb").toList) = [("aaaa\n\nbbbb").toList] ∧
    9 < (("aaaa\n\nbbbb").toList).length ∧
    (∀ piece ∈ splitOnSep (['\n', '\n']) (("aaaa\n\nbbbb").toList), piece.length < 9) := by
  refine ⟨by decide, by decide, by decide⟩

/-- C2, amended: every chunk emitted by split is the trimmed separator-join of
    a nonempty group of pieces, each individually shorter than chunk_size,
    whose summed length (excluding the joining separators) is at most
    chunk_size.  The chunk's full length can exceed chunk_size by the
    interleaved separator characters, so the bound claimed on the chunk length
    itself does not hold; no emitted chunk is a single oversized atomic piece. -/
theorem c2_chunk_piece_sum_bound (cs ov : Nat) (text : List Char) :
    ∀ chunk ∈ splitText cs ov text, goodChunk cs chunk := by
  intro chunk hc
  unfold splitText at hc
  cases hres : splitTextFuel cs ov (text.length + 1) text with
  | none =>
    rw [hres] at hc
    simp at hc
  | some res =>
    rw [hres] at hc
    exact splitTextFuel_sound cs ov (text.length + 1) text res hres chunk hc

/-- C2, witness for the amended theorem at a concrete input: split with
    chunk_size 3 and overlap 0 of the two-character text emits it as one chunk
    satisfying the piece-sum bound. -/
theorem c2_witness :
    (("ab").toList ∈ splitText 3 0 (("ab").toList)) ∧ goodChunk 3 (("ab").toList) :=
  ⟨by decide, c2_chunk_piece_sum_bound 3 0 (("ab").toList) (("ab").toList) (by decide)⟩

/-- C3, counterexample to the claim as stated: in a run with root depth 2 and
    breadth 4, the observer receives a snapshot whose total_depth is not 2 or
    whose total_breadth is not 4 — nested calls build a fresh Progress record
    carrying their own parameters, they do not mutate the root's record. -/
theorem c3_counterexample :
    ((deep_research env3 2 ("topic") 4 [] []).2.1).any
      (fun p => p.total_depth != 2 || p.total_breadth != 4) = true := by
  decide

/-- C3, amended: each recursive call creates its own fresh Progress record
    rather than mutating one shared record; a snapshot delivered to the
    observer carries the emitting level's parameters, so its current_depth
    always equals its total_depth (neither is ever updated after creation),
    likewise for breadth, and its total_depth is at most the root's depth
    rather than equal to it. -/
theorem c3_per_level_progress (env : Env) (q : String) (b d : Nat)
    (ls vs : List String) (p : ResearchProgress)
    (hp : p ∈ (deep_research env d q b ls vs).2.1) :
    p.current_depth = p.total_depth ∧ p.current_breadth = p.total_breadth ∧
    p.total_depth ≤ d := by
  obtain ⟨h1, h2, i, hc⟩ := trace_shape env d q b ls vs p hp
  refine ⟨h1, h2, ?_⟩
  rcases hc with ⟨_, hd, _⟩ | ⟨_, _, hd, _⟩ <;> omega

/-- C3, witness: the amended theorem applied to a concrete nested snapshot of
    a depth-2, breadth-4 run. -/
theorem c3_witness :
    ((⟨1, 1, 2, 2, some ("- l1"), 2, 0⟩ : ResearchProgress) ∈
      (deep_research env3 2 ("topic") 4 [] []).2.1) ∧
    ((⟨1, 1, 2, 2, some ("- l1"), 2, 0⟩ : ResearchProgress).current_depth =
        (⟨1, 1, 2, 2, some ("- l1"), 2, 0⟩ : ResearchProgress).total_depth ∧
      (⟨1, 1, 2, 2, some ("- l1"), 2, 0⟩ : ResearchProgress).current_breadth =
        (⟨1, 1, 2, 2, some ("- l1"), 2, 0⟩ : ResearchProgress).total_breadth ∧
      (⟨1, 1, 2, 2, some ("- l1"), 2, 0⟩ : ResearchProgress).total_depth ≤ 2) :=
  ⟨by decide,
   c3_per_level_progress env3 ("topic") 4 2 [] [] ⟨1, 1, 2, 2, some ("- l1"), 2, 0⟩
     (by decide)⟩

/-- C4, counterexample to the claim as stated: the configuration
    chunk_size = 1, overlap = 0 satisfies overlap < chunk_size, yet split of
    the one-character text never terminates — a single character has length
    1 >= chunk_size, so the character-level base case recurses on itself
    forever (no fuel suffices). -/
theorem c4_counterexample : ¬ splitTextTerminates 1 0 ['x'] := by
  rintro ⟨fuel, hf⟩
  rw [splitTextFuel_one_x fuel] at hf
  simp at hf

/-- C4, amended: split terminates on every input text whenever
    chunk_size >= 2 (single characters are then strictly below chunk_size, so
    the separator cascade always bottoms out); the precondition
    overlap < chunk_size alone does not suffice, since chunk_size = 1 admits
    overlap = 0 but diverges on any nonempty text. -/
theorem c4_termination (cs ov : Nat) (text : List Char) (h2 : 2 ≤ cs) :
    splitTextTerminates cs ov text :=
  ⟨text.length + 1, splitTextFuel_isSome cs ov h2 (text.length + 1) text (by omega)⟩

/-- C4, witness: the amended theorem applied at chunk_size 50, overlap 10 on a
    concrete text. -/
theorem c4_witness : 2 ≤ 50 ∧ splitTextTerminates 50 10 (("xxxx").toList) :=
  ⟨by decide, c4_termination 50 10 (("xxxx").toList) (by decide)⟩

/-- C5: the learnings and visited-urls of the returned ResearchResult are the
    first-occurrence deduplication of the concatenated branch contributions in
    traversal order: both are duplicate-free, both are order-preserving
    sublists of the raw concatenation containing exactly its values, and the
    deduplication of any traversal-order prefix of the raw concatenation is a
    prefix of the final sequence (first occurrence wins, insertion order
    preserved). -/
theorem c5_dedup_first_occurrence (env : Env) (q : String) (b d : Nat)
    (ls vs : List String) (x : String) (l1 l2 : List String)
    (hsplit : rawLearnings env q b d ls vs = l1 ++ l2) :
    (deep_research env d q b ls vs).1.learnings.Nodup ∧
    (deep_research env d q b ls vs).1.visited_urls.Nodup ∧
    (deep_research env d q b ls vs).1.learnings.Sublist (rawLearnings env q b d ls vs) ∧
    (deep_research env d q b ls vs).1.visited_urls.Sublist (rawVisited env q b d ls vs) ∧
    (x ∈ (deep_research env d q b ls vs).1.learnings ↔
      x ∈ rawLearnings env q b d ls vs) ∧
    (x ∈ (deep_research env d q b ls vs).1.visited_urls ↔
      x ∈ rawVisited env q b d ls vs) ∧
    (dedupFirst l1) <+: (deep_research env d q b ls vs).1.learnings := by
  have hL : (deep_research env d q b ls vs).1.learnings =
      dedupFirst (rawLearnings env q b d ls vs) := by
    rw [deep_research_result]
  have hV : (deep_research env d q b ls vs).1.visited_urls =
      dedupFirst (rawVisited env q b d ls vs) := by
    rw [deep_research_result]
  rw [hL, hV]
  refine ⟨dedupFirst_nodup _, dedupFirst_nodup _, dedupFirst_sublist _,
    dedupFirst_sublist _, dedupFirst_mem _ _, dedupFirst_mem _ _, ?_⟩
  rw [hsplit]
  exact dedupFirst_append_isPrefix l1 l2

/-- C5, witness: the theorem applied to a concrete depth-2 run in which the
    same learning is discovered by two sibling branches (the raw concatenation
    holds two copies); the result keeps the first occurrence only. -/
theorem c5_witness :
    (rawLearnings env3 ("topic") 4 2 [] [] = ["l1"] ++ ["l1"]) ∧
    ((deep_research env3 2 ("topic") 4 [] []).1.learnings.Nodup ∧
     (deep_research env3 2 ("topic") 4 [] []).1.visited_urls.Nodup ∧
     (deep_research env3 2 ("topic") 4 [] []).1.learnings.Sublist
       (rawLearnings env3 ("topic") 4 2 [] []) ∧
     (deep_research env3 2 ("topic") 4 [] []).1.visited_urls.Sublist
       (rawVisited env3 ("topic") 4 2 [] []) ∧
     (("l1") ∈ (deep_research env3 2 ("topic") 4 [] []).1.learnings ↔
       ("l1") ∈ rawLearnings env3 ("topic") 4 2 [] []) ∧
     (("l1") ∈ (deep_research env3 2 ("topic") 4 [] []).1.visited_urls ↔
       ("l1") ∈ rawVisited env3 ("topic") 4 2 [] []) ∧
     (dedupFirst ["l1"]) <+: (deep_research env3 2 ("topic") 4 [] []).1.learnings) :=
  ⟨by decide,
   c5_dedup_first_occurrence env3 ("topic") 4 2 [] [] ("l1") ["l1"] ["l1"] (by decide)⟩

/-- C6: a search-collaborator failure is absorbed per branch.  The merged
    result is exactly the dedup-merge of the branches of those planned queries
    whose search succeeded, in plan order — every successfully searched query
    contributes its branch result and only the failing queries are skipped;
    the call itself always returns a value (search failures are the only
    failure channel modelled, and they are caught).  A query's branch is
    skipped (processQuery yields none) precisely when its search fails. -/
theorem c6_search_failure_isolation (env : Env) (q : String) (b d : Nat)
    (ls vs : List String) (qq : SerpQuery) :
    (deep_research env d q b ls vs).1 =
      ⟨dedupFirst (((((generate_serp_queries env q b ls).filter (searchOk env)).filterMap
          (processQuery env (drChild env d) b d ls vs)).map
            (fun r => r.learnings)).flatten),
       dedupFirst (((((generate_serp_queries env q b ls).filter (searchOk env)).filterMap
          (processQuery env (drChild env d) b d ls vs)).map
            (fun r => r.visited_urls)).flatten)⟩ ∧
    (processQuery env (drChild env d) b d ls vs qq = none ↔ searchOk env qq = false) := by
  constructor
  · rw [deep_research_result, rawLearnings, rawVisited,
      filterMap_processQuery_filter env (drChild env d) b d ls vs]
  · cases hs : env.search qq.query 5 with
    | error e => simp [processQuery, searchOk, hs]
    | ok res =>
      by_cases hd : 0 < d - 1
      · simp [processQuery, searchOk, hs, hd]
      · simp [processQuery, searchOk, hs, hd]

/-- C7: every progress snapshot of the traversal is emitted by a level whose
    parameters follow the shrink policy: for some nesting level i, either
    i = 0 and the snapshot carries the root parameters (depth, breadth), or
    0 < i < depth and it carries depth - i and max 1 (breadth >>> i) — i.e.
    depth decrements by exactly one per level, breadth halves with floor and
    minimum 1, and levels below the root exist only while the child depth is
    positive. -/
theorem c7_shrink_per_level (env : Env) (q : String) (b d : Nat)
    (ls vs : List String) (p : ResearchProgress)
    (hp : p ∈ (deep_research env d q b ls vs).2.1) :
    ∃ i, (i = 0 ∧ p.total_depth = d ∧ p.total_breadth = b) ∨
         (0 < i ∧ i < d ∧ p.total_depth = d - i ∧ p.total_breadth = max 1 (b >>> i)) := by
  obtain ⟨_, _, i, hc⟩ := trace_shape env d q b ls vs p hp
  exact ⟨i, hc⟩

/-- C7, witness: the theorem applied to a concrete nested snapshot of a
    depth-2, breadth-4 run (a level-1 snapshot with depth 1 and breadth 2). -/
theorem c7_witness :
    ((⟨1, 1, 2, 2, some ("- l1"), 2, 1⟩ : ResearchProgress) ∈
      (deep_research env3 2 ("topic") 4 [] []).2.1) ∧
    (∃ i, (i = 0 ∧
        (⟨1, 1, 2, 2, some ("- l1"), 2, 1⟩ : ResearchProgress).total_depth = 2 ∧
        (⟨1, 1, 2, 2, some ("- l1"), 2, 1⟩ : ResearchProgress).total_breadth = 4) ∨
      (0 < i ∧ i < 2 ∧
        (⟨1, 1, 2, 2, some ("- l1"), 2, 1⟩ : ResearchProgress).total_depth = 2 - i ∧
        (⟨1, 1, 2, 2, some ("- l1"), 2, 1⟩ : ResearchProgress).total_breadth =
          max 1 (4 >>> i))) :=
  ⟨by decide,
   c7_shrink_per_level env3 ("topic") 4 2 [] [] ⟨1, 1, 2, 2, some ("- l1"), 2, 1⟩
     (by decide)⟩

/-- C8: constructing a TextSplitter succeeds, storing exactly the given
    configuration, if and only if overlap < chunk_size; in particular
    chunk_size = 100 with overlap = 100 is rejected with an error.  The check
    is made once by the constructor; the split and merge operations above take
    the stored configuration and never re-check it. -/
theorem c8_constructor_validation (cs ov : Nat) :
    (∃ t, TextSplitter.init cs ov = Except.ok t ∧
      t.chunk_size = cs ∧ t.chunk_overlap = ov) ↔ ov < cs := by
  unfold TextSplitter.init
  by_cases h : cs ≤ ov
  · rw [if_pos h]
    constructor
    · rintro ⟨t, ht, _⟩
      exact absurd ht (by simp)
    · intro h2
      omega
  · rw [if_neg h]
    constructor
    · intro _
      omega
    · intro _
      exact ⟨⟨cs, ov⟩, rfl, rfl, rfl⟩

/-- C9: the Query Planner returns exactly one Query per non-blank line of the
    completion response — the stripped line is both the query text and the
    research goal — truncated to at most max_queries entries; a response with
    zero usable lines yields the empty sequence (the planner is a total
    function, not an error path). -/
theorem c9_query_planner (env : Env) (q : String) (n : Nat) (ls : List String) :
    generate_serp_queries env q n ls =
      planSpec (env.complete (serpPrompt q n ls)) n ∧
    (generate_serp_queries env q n ls).length ≤ n := by
  constructor
  · simp only [generate_serp_queries, planSpec]
    rw [parseLines_eq]
  · simp only [generate_serp_queries]
    exact List.length_take_le n _

/-- C10: a barren node — one whose planner returned no queries or all of whose
    planned queries had failing searches — returns the empty ResearchResult:
    the learnings and visited lists passed in by the caller are not carried
    through into its returned value. -/
theorem c10_barren_node_empty_result (env : Env) (q : String) (b d : Nat)
    (ls vs : List String)
    (h : ∀ qq ∈ generate_serp_queries env q b ls, searchOk env qq = false) :
    (deep_research env d q b ls vs).1 = ⟨[], []⟩ := by
  rw [deep_research_result]
  have hraw : (generate_serp_queries env q b ls).filterMap
      (processQuery env (drChild env d) b d ls vs) = [] := by
    rw [List.filterMap_eq_nil_iff]
    intro qq hq
    have hf := h qq hq
    cases hs : env.search qq.query 5 with
    | error e => simp [processQuery, hs]
    | ok res => simp [searchOk, hs] at hf
  rw [rawLearnings, rawVisited, hraw]
  rfl

/-- C10, witness: the theorem applied to an environment whose search always
    fails, with non-empty incoming learnings and visited lists — the returned
    result is empty, discarding them. -/
theorem c10_witness :
    (∀ qq ∈ generate_serp_queries env1 ("topic") 2 ["prior"], searchOk env1 qq = false) ∧
    (deep_research env1 3 ("topic") 2 ["prior"] ["urlx"]).1 = ⟨[], []⟩ :=
  ⟨by decide,
   c10_barren_node_empty_result env1 ("topic") 2 3 ["prior"] ["urlx"] (by decide)⟩
